import Mathlib

/-!
Verification of the page-tree model and resolution pipeline of the
BlankGenerator static site generator.

The development shallowly embeds the Python sources:

* `config.py` — `merge_dict` and the hierarchical `Config` type;
* `nodes.py` — front-matter sniffing and splitting, page classification,
  index-page URL derivation, the auto-index/pagination engine, child
  filtering, and `relations_info`;
* `template.py` / `main.py` — the template resolver fallback chain;
* `plugin.py` / `register.py` — the two converter registries.

Python values that can appear in configuration documents (the JSON/YAML-like
universe manipulated by `merge_dict`) are modelled by `Val`; Python `dict`s
are modelled as association lists with unique keys (`AList`), with `getItem?`
and `setItem` reproducing `d[k]`-style reads and writes (a write to an
existing key keeps its position, a write to a fresh key appends).
-/

namespace BG

/-- The universe of JSON/YAML-like Python values stored in configuration
documents: `None`, booleans, integers, strings, sequences and mappings.
Python mappings are represented as insertion-ordered association lists. -/
inductive Val where
  | null
  | bool (b : Bool)
  | int (n : Int)
  | str (s : String)
  | list (xs : List Val)
  | dict (es : List (String × Val))
deriving Repr

/-- An insertion-ordered Python `dict` with `Val` values. -/
abbrev AList := List (String × Val)

/-- `d.get(k)` / `d[k]` on a Python dict: the value stored at `k`, if any.
The first occurrence of a key is its binding (lists built by `setItem` from
`[]` never hold duplicate keys). -/
def getItem? : AList → String → Option Val
  | [], _ => Option.none
  | (k', v) :: rest, k => if k' = k then some v else getItem? rest k

/-- `d[k] = v` on a Python dict: overwriting an existing key keeps its
position, a fresh key is appended at the end (insertion order). -/
def setItem : AList → String → Val → AList
  | [], k, v => [(k, v)]
  | (k', v') :: rest, k, v =>
      if k' = k then (k, v) :: rest else (k', v') :: setItem rest k v

/-- The key sequence of a dict. -/
def keysOf (d : AList) : List String := d.map Prod.fst

/-- The `result = {}; for k, v in x.items(): result[k] = v` loop opening
`merge_dict` in `config.py`: copy `x` entry by entry into a fresh dict. -/
def copyDict (d : AList) : AList := d.foldl (fun r kv => setItem r kv.1 kv.2) []

mutual

/-- Structural size of a `Val`, used as a termination fuel bound for the
recursive merge (mutually defined with the sizes of the nested lists). -/
def valSize : Val → Nat
  | .null => 1
  | .bool _ => 1
  | .int _ => 1
  | .str _ => 1
  | .list xs => 1 + valSizeL xs
  | .dict es => 1 + valSizeD es

def valSizeL : List Val → Nat
  | [] => 0
  | v :: rest => 1 + valSize v + valSizeL rest

def valSizeD : List (String × Val) → Nat
  | [] => 0
  | (_, v) :: rest => 1 + valSize v + valSizeD rest

end

/-- Fuel-indexed version of the `for k, v in y.items()` loop of
`merge_dict` (`config.py` lines 25-29): for every key of `y`, if both the
current value and the override value are dicts the merge recurses, otherwise
the override value replaces the current one.  The fuel only serves
termination bookkeeping; `valSizeD y` units always suffice
(`mergeF_congr`). -/
def mergeF : Nat → AList → AList → AList
  | 0, r, _ => r
  | _ + 1, r, [] => r
  | fuel + 1, r, (k, Val.dict d2) :: rest =>
      mergeF fuel (setItem r k (match getItem? r k with
        | some (Val.dict d1) => Val.dict (mergeF fuel (copyDict d1) d2)
        | _ => Val.dict d2)) rest
  | fuel + 1, r, (k, v) :: rest => mergeF fuel (setItem r k v) rest

/-- The override loop of `merge_dict` run on an already-copied accumulator
`r`, with adequate fuel. -/
def merge_into (r y : AList) : AList := mergeF (valSizeD y) r y

/-- `merge_dict(x, y)` from `config.py`: copy `x`, then fold the entries of
`y` over it, recursing when both sides hold dicts and overriding
otherwise. -/
def merge_dict (x y : AList) : AList := merge_into (copyDict x) y

theorem one_le_valSize (v : Val) : 1 ≤ valSize v := by
  cases v <;> simp [valSize]

theorem mergeF_cons_dict (f : Nat) (r : AList) (k : String) (d2 rest : AList) :
    mergeF (f + 1) r ((k, Val.dict d2) :: rest) =
      mergeF f (setItem r k (match getItem? r k with
        | some (Val.dict d1) => Val.dict (mergeF f (copyDict d1) d2)
        | _ => Val.dict d2)) rest := by
  simp only [mergeF]

theorem mergeF_cons_ne (f : Nat) (r : AList) (k : String) (v : Val) (rest : AList)
    (hv : ∀ d, v ≠ Val.dict d) :
    mergeF (f + 1) r ((k, v) :: rest) = mergeF f (setItem r k v) rest := by
  cases v with
  | dict d => exact absurd rfl (hv d)
  | null => simp only [mergeF]
  | bool b => simp only [mergeF]
  | int n => simp only [mergeF]
  | str s => simp only [mergeF]
  | list xs => simp only [mergeF]

theorem mergeF_congr (n : Nat) : ∀ (y : AList), valSizeD y ≤ n →
    ∀ (f1 f2 : Nat) (r : AList), valSizeD y ≤ f1 → valSizeD y ≤ f2 →
    mergeF f1 r y = mergeF f2 r y := by
  induction n using Nat.strong_induction_on with
  | _ n ih =>
    intro y hy f1 f2 r h1 h2
    cases y with
    | nil => cases f1 <;> cases f2 <;> rfl
    | cons kv rest =>
      obtain ⟨k, v⟩ := kv
      have hsz : valSizeD ((k, v) :: rest) = 1 + valSize v + valSizeD rest := rfl
      rw [hsz] at hy h1 h2
      obtain ⟨a, rfl⟩ : ∃ a, f1 = a + 1 := ⟨f1 - 1, by omega⟩
      obtain ⟨b, rfl⟩ : ∃ b, f2 = b + 1 := ⟨f2 - 1, by omega⟩
      cases v
      case dict d2 =>
        have hd2 : valSize (Val.dict d2) = 1 + valSizeD d2 := rfl
        rw [hd2] at hy h1 h2
        rw [mergeF_cons_dict, mergeF_cons_dict]
        have hnewv : (match getItem? r k with
            | some (Val.dict d1) => Val.dict (mergeF a (copyDict d1) d2)
            | _ => Val.dict d2) = (match getItem? r k with
            | some (Val.dict d1) => Val.dict (mergeF b (copyDict d1) d2)
            | _ => Val.dict d2) := by
          cases hg : getItem? r k with
          | none => rfl
          | some w =>
            cases w <;> try rfl
            case dict d1 =>
              exact congrArg Val.dict (ih (valSizeD d2) (by omega) d2 (le_refl _) a b
                (copyDict d1) (by omega) (by omega))
        rw [hnewv]
        exact ih (valSizeD rest) (by omega) rest (le_refl _) a b _ (by omega) (by omega)
      all_goals
        rw [mergeF_cons_ne _ _ _ _ _ (by intro d hd; cases hd),
          mergeF_cons_ne _ _ _ _ _ (by intro d hd; cases hd)]
      all_goals
        exact ih (valSizeD rest) (by omega) rest (le_refl _) a b _ (by omega) (by omega)

theorem merge_into_nil (r : AList) : merge_into r [] = r := rfl

theorem merge_into_cons_dict (r : AList) (k : String) (d2 rest : AList) :
    merge_into r ((k, Val.dict d2) :: rest) =
      merge_into (setItem r k (match getItem? r k with
        | some (Val.dict d1) => Val.dict (merge_dict d1 d2)
        | _ => Val.dict d2)) rest := by
  unfold merge_into merge_dict merge_into
  have h0 : valSizeD ((k, Val.dict d2) :: rest) = (1 + valSizeD d2 + valSizeD rest) + 1 := by
    have h1 : valSizeD ((k, Val.dict d2) :: rest) = 1 + valSize (Val.dict d2) + valSizeD rest := rfl
    have h2 : valSize (Val.dict d2) = 1 + valSizeD d2 := rfl
    omega
  rw [h0, mergeF_cons_dict]
  have hnewv : (match getItem? r k with
      | some (Val.dict d1) =>
          Val.dict (mergeF (1 + valSizeD d2 + valSizeD rest) (copyDict d1) d2)
      | _ => Val.dict d2) = (match getItem? r k with
      | some (Val.dict d1) => Val.dict (mergeF (valSizeD d2) (copyDict d1) d2)
      | _ => Val.dict d2) := by
    cases hg : getItem? r k with
    | none => rfl
    | some w =>
      cases w <;> try rfl
      case dict d1 =>
        exact congrArg Val.dict (mergeF_congr (1 + valSizeD d2 + valSizeD rest) d2 (by omega)
          (1 + valSizeD d2 + valSizeD rest) (valSizeD d2) (copyDict d1) (by omega) (le_refl _))
  rw [hnewv]
  exact mergeF_congr (1 + valSizeD d2 + valSizeD rest) rest (by omega)
    (1 + valSizeD d2 + valSizeD rest) (valSizeD rest) _ (by omega) (le_refl _)

theorem merge_into_cons_ne (r : AList) (k : String) (v : Val) (rest : AList)
    (hv : ∀ d, v ≠ Val.dict d) :
    merge_into r ((k, v) :: rest) = merge_into (setItem r k v) rest := by
  unfold merge_into
  have h0 : valSizeD ((k, v) :: rest) = (valSize v + valSizeD rest) + 1 := by
    have h1 : valSizeD ((k, v) :: rest) = 1 + valSize v + valSizeD rest := rfl
    omega
  rw [h0, mergeF_cons_ne _ _ _ _ _ hv]
  exact mergeF_congr (valSize v + valSizeD rest) rest (by omega)
    (valSize v + valSizeD rest) (valSizeD rest) _ (by omega) (le_refl _)

theorem keysOf_cons (k : String) (v : Val) (rest : AList) :
    keysOf ((k, v) :: rest) = k :: keysOf rest := rfl

theorem getItem?_setItem (d : AList) (k : String) (v : Val) (k' : String) :
    getItem? (setItem d k v) k' = if k = k' then some v else getItem? d k' := by
  induction d with
  | nil =>
    by_cases hk : k = k' <;> simp [setItem, getItem?, hk]
  | cons kv rest ih =>
    obtain ⟨k0, v0⟩ := kv
    by_cases h0 : k0 = k
    · subst h0
      simp only [setItem, if_pos rfl]
      by_cases hk : k0 = k' <;> simp [getItem?, hk]
    · simp only [setItem, if_neg h0]
      by_cases hk : k0 = k'
      · subst hk
        have hne : ¬k = k0 := fun he => h0 he.symm
        simp [getItem?, hne]
      · simp [getItem?, hk, ih]

theorem getItem?_eq_none_iff (d : AList) (k : String) :
    getItem? d k = Option.none ↔ k ∉ keysOf d := by
  induction d with
  | nil => simp [getItem?, keysOf]
  | cons kv rest ih =>
    obtain ⟨k0, v0⟩ := kv
    rw [keysOf_cons]
    by_cases hk : k0 = k
    · subst hk
      simp [getItem?]
    · have hne : ¬k = k0 := fun he => hk he.symm
      simp [getItem?, hk, ih, List.mem_cons, hne]

theorem getItem?_append (a b : AList) (k : String) :
    getItem? (a ++ b) k = match getItem? a k with
      | some v => some v
      | Option.none => getItem? b k := by
  induction a with
  | nil => simp [getItem?]
  | cons kv rest ih =>
    obtain ⟨k0, v0⟩ := kv
    by_cases hk : k0 = k <;> simp [getItem?, hk, ih]

theorem setItem_eq_append (d : AList) (k : String) (v : Val)
    (h : getItem? d k = Option.none) : setItem d k v = d ++ [(k, v)] := by
  induction d with
  | nil => simp [setItem]
  | cons kv rest ih =>
    obtain ⟨k0, v0⟩ := kv
    simp only [getItem?] at h
    by_cases hk : k0 = k
    · simp [hk] at h
    · simp [setItem, hk] at h ⊢
      exact ih h

theorem foldl_setItem_fresh (d : AList) : ∀ (r : AList), (keysOf d).Nodup →
    (∀ k ∈ keysOf d, getItem? r k = Option.none) →
    d.foldl (fun r kv => setItem r kv.1 kv.2) r = r ++ d := by
  induction d with
  | nil => intro r _ _; simp
  | cons kv rest ih =>
    obtain ⟨k0, v0⟩ := kv
    intro r hnd hfresh
    rw [keysOf_cons, List.nodup_cons] at hnd
    obtain ⟨hk0, hnd'⟩ := hnd
    have h0 : getItem? r k0 = Option.none :=
      hfresh k0 (by rw [keysOf_cons]; exact List.mem_cons_self k0 _)
    have hstep : setItem r k0 v0 = r ++ [(k0, v0)] := setItem_eq_append r k0 v0 h0
    simp only [List.foldl_cons]
    rw [hstep, ih (r ++ [(k0, v0)]) hnd']
    · simp
    · intro k hk
      rw [getItem?_append]
      have hr : getItem? r k = Option.none :=
        hfresh k (by rw [keysOf_cons]; exact List.mem_cons_of_mem k0 hk)
      have hne : ¬k0 = k := fun he => hk0 (he ▸ hk)
      simp [hr, getItem?, hne]

theorem copyDict_eq_self (d : AList) (h : (keysOf d).Nodup) : copyDict d = d := by
  unfold copyDict
  rw [foldl_setItem_fresh d [] h (fun k _ => rfl)]
  simp

theorem keysOf_setItem (d : AList) (k : String) (v : Val) :
    keysOf (setItem d k v) = if k ∈ keysOf d then keysOf d else keysOf d ++ [k] := by
  induction d with
  | nil => simp [setItem, keysOf]
  | cons kv rest ih =>
    obtain ⟨k0, v0⟩ := kv
    by_cases hk : k0 = k
    · subst hk
      simp [setItem, keysOf_cons]
    · have hne : ¬k = k0 := fun he => hk he.symm
      simp only [setItem, if_neg hk, keysOf_cons]
      rw [ih]
      by_cases hm : k ∈ keysOf rest
      · rw [if_pos hm, if_pos (List.mem_cons_of_mem k0 hm)]
      · rw [if_neg hm, if_neg (by rw [List.mem_cons]; rintro (h | h); exact hne h; exact hm h)]
        rfl

theorem setItem_nodup (d : AList) (k : String) (v : Val) (h : (keysOf d).Nodup) :
    (keysOf (setItem d k v)).Nodup := by
  rw [keysOf_setItem]
  by_cases hm : k ∈ keysOf d
  · rw [if_pos hm]; exact h
  · rw [if_neg hm]
    exact List.Nodup.append h (List.nodup_singleton k) (fun a ha hb => by
      rw [List.mem_singleton] at hb; subst hb; exact hm ha)

theorem foldl_setItem_nodup (d : AList) : ∀ (r : AList), (keysOf r).Nodup →
    (keysOf (d.foldl (fun r kv => setItem r kv.1 kv.2) r)).Nodup := by
  induction d with
  | nil => intro r h; simpa using h
  | cons kv rest ih =>
    intro r h
    simp only [List.foldl_cons]
    exact ih _ (setItem_nodup r kv.1 kv.2 h)

theorem copyDict_nodup (d : AList) : (keysOf (copyDict d)).Nodup :=
  foldl_setItem_nodup d [] (by simp [keysOf])

theorem merge_into_nodup (y : AList) : ∀ (r : AList), (keysOf r).Nodup →
    (keysOf (merge_into r y)).Nodup := by
  induction y with
  | nil => intro r h; rw [merge_into_nil]; exact h
  | cons kv rest ih =>
    obtain ⟨k, v⟩ := kv
    intro r h
    cases v
    case dict d2 =>
      rw [merge_into_cons_dict]
      exact ih _ (setItem_nodup r k _ h)
    all_goals
      rw [merge_into_cons_ne _ _ _ _ (by intro d hd; cases hd)]
    all_goals
      exact ih _ (setItem_nodup r k _ h)

theorem merge_dict_nodup (x y : AList) : (keysOf (merge_dict x y)).Nodup :=
  merge_into_nodup y (copyDict x) (copyDict_nodup x)

theorem getItem?_merge_into (y : AList) (hy : (keysOf y).Nodup) :
    ∀ (r : AList) (k : String), getItem? (merge_into r y) k =
      match getItem? y k with
      | Option.none => getItem? r k
      | some v =>
          some (match getItem? r k, v with
            | some (Val.dict d1), Val.dict d2 => Val.dict (merge_dict d1 d2)
            | _, _ => v) := by
  induction y with
  | nil =>
    intro r k
    rw [merge_into_nil]
    simp [getItem?]
  | cons kv rest ih =>
    obtain ⟨k0, v0⟩ := kv
    intro r k
    rw [keysOf_cons, List.nodup_cons] at hy
    obtain ⟨hk0, hnd'⟩ := hy
    have hrest0 : getItem? rest k0 = Option.none := (getItem?_eq_none_iff rest k0).mpr hk0
    have hmain : ∀ (newv : Val),
        (match getItem? r k0, v0 with
          | some (Val.dict d1), Val.dict d2 => Val.dict (merge_dict d1 d2)
          | _, _ => v0) = newv →
        getItem? (merge_into (setItem r k0 newv) rest) k =
          match getItem? ((k0, v0) :: rest) k with
          | Option.none => getItem? r k
          | some v =>
              some (match getItem? r k, v with
                | some (Val.dict d1), Val.dict d2 => Val.dict (merge_dict d1 d2)
                | _, _ => v) := by
      intro newv hnewv
      rw [ih hnd']
      by_cases hk : k0 = k
      · subst hk
        rw [hrest0]
        simp only [getItem?_setItem, if_pos rfl, getItem?, if_pos rfl]
        exact congrArg some hnewv.symm
      · have hskip : getItem? ((k0, v0) :: rest) k = getItem? rest k := by
          simp [getItem?, hk]
        rw [hskip, getItem?_setItem, if_neg hk]
    clear hk0 hrest0
    cases v0
    case dict d2 =>
      rw [merge_into_cons_dict]
      refine hmain _ ?_
      cases hg : getItem? r k0 <;> try rfl
      next w => cases w <;> rfl
    all_goals
      rw [merge_into_cons_ne _ _ _ _ (by intro d hd; cases hd)]
    all_goals
      refine hmain _ ?_
    all_goals
      cases hg : getItem? r k0 <;> try rfl
    all_goals
      next w => cases w <;> rfl

theorem getItem?_merge_dict (x y : AList) (hx : (keysOf x).Nodup)
    (hy : (keysOf y).Nodup) (k : String) :
    getItem? (merge_dict x y) k =
      match getItem? x k, getItem? y k with
      | some (Val.dict d1), some (Val.dict d2) => some (Val.dict (merge_dict d1 d2))
      | _, some vy => some vy
      | some vx, Option.none => some vx
      | Option.none, Option.none => Option.none := by
  unfold merge_dict
  rw [getItem?_merge_into y hy (copyDict x) k, copyDict_eq_self x hx]
  cases hgy : getItem? y k with
  | none =>
    cases hgx : getItem? x k with
    | none => rfl
    | some w => cases w <;> rfl
  | some vy =>
    cases hgx : getItem? x k with
    | none => cases vy <;> rfl
    | some vx => cases vx <;> cases vy <;> rfl

/-- C2: the deep merge of mappings `x` and `y` contains every key of either
mapping; a key present in both maps to the recursive merge when both values
are mappings and to `y`'s value otherwise (sequences from `y` replace `x`'s
value wholesale), and a key present in only one mapping keeps that mapping's
value.  The four-way match on the two lookups covers exactly these cases. -/
theorem merge_dict_correct (x y : AList) (hx : (keysOf x).Nodup)
    (hy : (keysOf y).Nodup) (k : String) :
    getItem? (merge_dict x y) k =
      match getItem? x k, getItem? y k with
      | some (Val.dict d1), some (Val.dict d2) => some (Val.dict (merge_dict d1 d2))
      | _, some vy => some vy
      | some vx, Option.none => some vx
      | Option.none, Option.none => Option.none :=
  getItem?_merge_dict x y hx hy k

/-- Witness for C2 at the spec's own example
`merge({a:{x:1}}, {a:{y:2}}) = {a:{x:1,y:2}}`. -/
theorem merge_dict_correct_witness :
    (keysOf [("a", Val.dict [("x", Val.int 1)])]).Nodup ∧
    (keysOf [("a", Val.dict [("y", Val.int 2)])]).Nodup ∧
    getItem? (merge_dict [("a", Val.dict [("x", Val.int 1)])]
        [("a", Val.dict [("y", Val.int 2)])]) "a" =
      some (Val.dict [("x", Val.int 1), ("y", Val.int 2)]) :=
  ⟨by decide, by decide, by
    rw [merge_dict_correct [("a", Val.dict [("x", Val.int 1)])]
      [("a", Val.dict [("y", Val.int 2)])] (by decide) (by decide) "a"]
    rfl⟩

mutual

/-- Well-formedness of a value as produced by Python: every mapping nested
through mapping values has unique keys. -/
def dictsWF : Val → Bool
  | .dict es => decide ((keysOf es).Nodup) && entriesAllWF es
  | _ => true

def entriesAllWF : List (String × Val) → Bool
  | [] => true
  | (_, v) :: rest => dictsWF v && entriesAllWF rest

end

/-- Well-formedness of a mapping: unique keys at every nesting level. -/
def entriesWF (es : AList) : Bool := dictsWF (Val.dict es)

theorem entriesWF_nodup (es : AList) (h : entriesWF es = true) : (keysOf es).Nodup := by
  unfold entriesWF at h
  rw [dictsWF] at h
  exact of_decide_eq_true (Bool.and_elim_left h)

theorem entriesAllWF_mem (es : AList) (h : entriesAllWF es = true) :
    ∀ {k : String} {v : Val}, (k, v) ∈ es → dictsWF v = true := by
  induction es with
  | nil => intro k v hm; cases hm
  | cons kv rest ih =>
    obtain ⟨k0, v0⟩ := kv
    rw [entriesAllWF] at h
    intro k v hm
    rcases List.mem_cons.mp hm with h1 | h1
    · cases h1; exact Bool.and_elim_left h
    · exact ih (Bool.and_elim_right h) h1

theorem entriesWF_nested (es : AList) (h : entriesWF es = true) :
    ∀ {k : String} {d : AList}, (k, Val.dict d) ∈ es → entriesWF d = true := by
  intro k d hm
  unfold entriesWF at h ⊢
  rw [dictsWF] at h
  exact entriesAllWF_mem es (Bool.and_elim_right h) hm

theorem setItem_self (d : AList) (k : String) (v : Val)
    (h : getItem? d k = some v) : setItem d k v = d := by
  induction d with
  | nil => simp [getItem?] at h
  | cons kv rest ih =>
    obtain ⟨k0, v0⟩ := kv
    by_cases hk : k0 = k
    · subst hk
      simp [getItem?] at h
      subst h
      simp [setItem]
    · simp only [getItem?, if_neg hk] at h
      simp [setItem, hk, ih h]

theorem getItem?_of_mem_nodup (d : AList) (h : (keysOf d).Nodup) :
    ∀ {k : String} {v : Val}, (k, v) ∈ d → getItem? d k = some v := by
  induction d with
  | nil => intro k v hm; cases hm
  | cons kv rest ih =>
    obtain ⟨k0, v0⟩ := kv
    rw [keysOf_cons, List.nodup_cons] at h
    intro k v hm
    rcases List.mem_cons.mp hm with h1 | h1
    · obtain ⟨rfl, rfl⟩ := Prod.mk.injEq .. ▸ h1
      simp [getItem?]
    · have hk : ¬k0 = k := by
        intro he
        subst he
        exact h.1 (by rw [keysOf]; exact List.mem_map_of_mem Prod.fst h1)
      simp only [getItem?, if_neg hk]
      exact ih h.2 h1

theorem valSize_of_mem (es : AList) : ∀ {k : String} {v : Val},
    (k, v) ∈ es → valSize v < valSizeD es := by
  induction es with
  | nil => intro k v hm; cases hm
  | cons kv rest ih =>
    obtain ⟨k0, v0⟩ := kv
    intro k v hm
    have hsz : valSizeD ((k0, v0) :: rest) = 1 + valSize v0 + valSizeD rest := rfl
    rcases List.mem_cons.mp hm with h1 | h1
    · obtain ⟨rfl, rfl⟩ := Prod.mk.injEq .. ▸ h1
      omega
    · have := ih h1
      omega

theorem merge_into_self (y : AList) : ∀ (r : AList),
    (∀ kv ∈ y, getItem? r kv.1 = some kv.2) →
    (∀ (k : String) (d : AList), (k, Val.dict d) ∈ y → merge_dict d d = d) →
    merge_into r y = r := by
  induction y with
  | nil => intro r _ _; exact merge_into_nil r
  | cons kv rest ih =>
    obtain ⟨k0, v0⟩ := kv
    intro r hvals hdicts
    have h0 : getItem? r k0 = some v0 := hvals (k0, v0) (List.mem_cons_self _ _)
    cases v0
    case dict d2 =>
      rw [merge_into_cons_dict]
      have hself : (match getItem? r k0 with
          | some (Val.dict d1) => Val.dict (merge_dict d1 d2)
          | _ => Val.dict d2) = Val.dict d2 := by
        rw [h0]
        exact congrArg Val.dict (hdicts k0 d2 (List.mem_cons_self _ _))
      rw [hself, setItem_self r k0 _ h0]
      exact ih r (fun kv hm => hvals kv (List.mem_cons_of_mem _ hm))
        (fun k d hm => hdicts k d (List.mem_cons_of_mem _ hm))
    all_goals
      rw [merge_into_cons_ne _ _ _ _ (by intro d hd; cases hd), setItem_self r k0 _ h0]
    all_goals
      exact ih r (fun kv hm => hvals kv (List.mem_cons_of_mem _ hm))
        (fun k d hm => hdicts k d (List.mem_cons_of_mem _ hm))

theorem merge_dict_self_aux (n : Nat) : ∀ (es : AList), valSizeD es ≤ n →
    entriesWF es = true → merge_dict es es = es := by
  induction n using Nat.strong_induction_on with
  | _ n ih =>
    intro es hsz hwf
    have hnd := entriesWF_nodup es hwf
    unfold merge_dict
    rw [copyDict_eq_self es hnd]
    apply merge_into_self
    · intro kv hm
      obtain ⟨k, v⟩ := kv
      exact getItem?_of_mem_nodup es hnd hm
    · intro k d hm
      have h1 : valSize (Val.dict d) < valSizeD es := valSize_of_mem es hm
      have h2 : valSize (Val.dict d) = 1 + valSizeD d := rfl
      exact ih (valSizeD d) (by omega) d (le_refl _) (entriesWF_nested es hwf hm)

/-- Deep merge of a well-formed mapping with itself is the identity. -/
theorem merge_dict_self (es : AList) (h : entriesWF es = true) :
    merge_dict es es = es :=
  merge_dict_self_aux (valSizeD es) es (le_refl _) h

/-- The hierarchical `Config` of `config.py`: a node stores its materialized
view (already merged with the parent's view at construction time) and an
optional parent. -/
inductive ConfigM where
  | mk : AList → Option ConfigM → ConfigM

/-- The materialized mapping view of a Config (`self._config`). -/
def ConfigM.view : ConfigM → AList
  | .mk v _ => v

/-- The parent pointer of a Config (`self.parent`). -/
def ConfigM.parentC : ConfigM → Option ConfigM
  | .mk _ p => p

/-- `Config.__init__` for already-parsed mapping data: with a parent, the
stored view is `merge_dict(parent.as_dict(), data)`; without one it is the
data itself. -/
def Config.init (data : AList) (parent : Option ConfigM) : ConfigM :=
  match parent with
  | Option.none => ConfigM.mk data Option.none
  | some p => ConfigM.mk (merge_dict p.view data) (some p)

/-- `Config.overlay(another)` from `config.py`:
`Config(merge_dict(self._config, another), self)`. -/
def Config.overlay (c : ConfigM) (another : AList) : ConfigM :=
  Config.init (merge_dict c.view another) (some c)

/-- C9: `overlay(extra)` always builds a child Config whose parent is the
receiver (the receiver itself is untouched — the embedding is pure, matching
the code, which only constructs a new `Config`), and overlaying the empty
document leaves the materialized view unchanged: `overlay({})` equals the
receiver as a mapping. -/
theorem config_overlay_correct (c : ConfigM) (extra : AList) :
    (Config.overlay c extra).parentC = some c ∧
    (entriesWF c.view = true → (Config.overlay c []).view = c.view) := by
  constructor
  · rfl
  · intro hwf
    have hnd := entriesWF_nodup _ hwf
    show merge_dict c.view (merge_dict c.view []) = c.view
    have h1 : merge_dict c.view [] = c.view := by
      unfold merge_dict
      rw [merge_into_nil, copyDict_eq_self _ hnd]
    rw [h1]
    exact merge_dict_self _ hwf

/-- Witness for C9 on the concrete Config `{a: {x: 1}, b: "s"}`. -/
theorem config_overlay_correct_witness :
    entriesWF [("a", Val.dict [("x", Val.int 1)]), ("b", Val.str "s")] = true ∧
    (Config.overlay
        (ConfigM.mk [("a", Val.dict [("x", Val.int 1)]), ("b", Val.str "s")] Option.none)
        []).view = [("a", Val.dict [("x", Val.int 1)]), ("b", Val.str "s")] ∧
    (Config.overlay
        (ConfigM.mk [("a", Val.dict [("x", Val.int 1)]), ("b", Val.str "s")] Option.none)
        [("c", Val.int 3)]).parentC =
      some (ConfigM.mk [("a", Val.dict [("x", Val.int 1)]), ("b", Val.str "s")] Option.none) :=
  ⟨by decide,
    (config_overlay_correct
      (ConfigM.mk [("a", Val.dict [("x", Val.int 1)]), ("b", Val.str "s")] Option.none)
      []).2 (by decide),
    (config_overlay_correct
      (ConfigM.mk [("a", Val.dict [("x", Val.int 1)]), ("b", Val.str "s")] Option.none)
      [("c", Val.int 3)]).1⟩

/-- The line scan of `read_renderable_file` (`nodes.py` lines 44-55) after
line 0 has been skipped: while the target is the header accumulator, a line
equal to the marker switches the target to the contents accumulator and is
dropped; every other line goes to the current accumulator.  Once the target
is the contents accumulator the marker test is disabled
(`target is not contents`), so later markers are stored literally. -/
def scanLines : Bool → List String → List String × List String
  | _, [] => ([], [])
  | inHeaders, l :: rest =>
      if inHeaders then
        if l = "---\n" then scanLines false rest
        else
          let p := scanLines true rest
          (l :: p.1, p.2)
      else
        let p := scanLines false rest
        (p.1, l :: p.2)

/-- `read_renderable_file` from `nodes.py`: iterate the file's lines,
discard line 0 (the opening marker), scan the remainder, and join each
accumulator into a single string (the front-matter text and the body). -/
def read_renderable_file (lines : List String) : String × String :=
  match lines with
  | [] => ("", "")
  | _ :: rest =>
      let p := scanLines true rest
      (String.join p.1, String.join p.2)

/-- `l` is not the front-matter marker line. -/
def notMarker (l : String) : Bool := !decide (l = "---\n")

theorem scanLines_false (rest : List String) : scanLines false rest = ([], rest) := by
  induction rest with
  | nil => rfl
  | cons l rest ih => simp [scanLines, ih]

theorem scanLines_true (rest : List String) :
    scanLines true rest =
      (rest.takeWhile notMarker, (rest.dropWhile notMarker).drop 1) := by
  induction rest with
  | nil => simp [scanLines]
  | cons l rest ih =>
    by_cases hl : l = "---\n"
    · subst hl
      simp [scanLines, scanLines_false, List.takeWhile_cons, List.dropWhile_cons, notMarker]
    · simp [scanLines, List.takeWhile_cons, List.dropWhile_cons, notMarker, hl, ih]

/-- Modelled from the spec: the external YAML parser (PyYAML), restricted to
the flat `key: value` documents exercised by the spec's front-matter
example.  Splits the record at the first colon-space. -/
def parseYamlLine (cs : List Char) : Option (String × Val) :=
  match cs.findIdx? (fun c => c = ':') with
  | Option.none => Option.none
  | some i =>
      match cs.drop (i + 1) with
      | ' ' :: v => some (⟨cs.take i⟩, Val.str ⟨v⟩)
      | _ => Option.none

/-- Splits a character list at every occurrence of the separator. -/
def splitOnChar (c : Char) : List Char → List (List Char)
  | [] => [[]]
  | x :: rest =>
      match splitOnChar c rest with
      | [] => [[x]]
      | h :: t => if x = c then [] :: h :: t else (x :: h) :: t

/-- Modelled from the spec: the external YAML parser applied to a whole
front-matter document of `key: value` lines. -/
def parseSimpleYaml (s : String) : AList :=
  ((splitOnChar '\n' s.data).filter (fun l => !l.isEmpty)).filterMap parseYamlLine

/-- C3: for every renderable file's line sequence, line 0 is discarded, the
lines up to the first marker line form the front-matter text, and every
remaining line is stored verbatim in the body — only the first marker after
line 0 delimits, later markers stay in the body (last conjunct).  On
`"---\ntitle: hi\n---\nbody\n"` the front matter parses to `{title: "hi"}`
and the body is exactly `"body\n"`. -/
theorem read_renderable_file_correct :
    (∀ (l0 : String) (rest : List String),
      read_renderable_file (l0 :: rest) =
        (String.join (rest.takeWhile notMarker),
          String.join ((rest.dropWhile notMarker).drop 1))) ∧
    read_renderable_file ["---\n", "title: hi\n", "---\n", "body\n"] =
      ("title: hi\n", "body\n") ∧
    parseSimpleYaml "title: hi\n" = [("title", Val.str "hi")] ∧
    read_renderable_file ["---\n", "a\n", "---\n", "b\n", "---\n", "c\n"] =
      ("a\n", "b\n---\nc\n") := by
  refine ⟨fun l0 rest => ?_, by rfl, by rfl, by rfl⟩
  show (let p := scanLines true rest; (String.join p.1, String.join p.2)) = _
  rw [scanLines_true]

/-- POSIX rendering of `'/' / path` for a root-relative directory component
list (`PurePosixPath` semantics: the empty relative path renders as `/`). -/
def posixDirPath (dirs : List String) : String :=
  if dirs = [] then "/" else "/" ++ String.intercalate "/" dirs

/-- Python `ds == 'index.html'` on a config value. -/
def valEqStr : Val → String → Bool
  | .str s, t => decide (s = t)
  | _, _ => false

/-- Python `ds is False` on a config value (identity with the `False`
singleton). -/
def valIsFalse : Val → Bool
  | .bool false => true
  | _ => false

/-- The `directory_slash` resolution of `IndexPageMixIn.url` (`nodes.py`
lines 395-397): the page's own config value, falling back to the parent
directory's config value when the own lookup yields `None` (absent or
explicit null). -/
def resolveDirectorySlash (own parentv : Val) : Val :=
  match own with
  | .null => parentv
  | _ => own

namespace IndexPageMixIn

/-- `IndexPageMixIn.url` from `nodes.py` (lines 394-407), as a function of
the two `directory_slash` config lookups and of the page's root-relative
path, split into its directory components and file name. -/
def url (own parentv : Val) (dirs : List String) (fname : String) : String :=
  let ds := resolveDirectorySlash own parentv
  if valEqStr ds "index.html" then "/" ++ String.intercalate "/" (dirs ++ [fname])
  else
    let path := posixDirPath dirs
    if !valIsFalse ds && !decide (path = "/") then path ++ "/" else path

end IndexPageMixIn

/-- The URL the spec's words assign to an index-capable page for a resolved
`directory_slash` value: `"index.html"` keeps the literal file name, `false`
drops the trailing slash, anything else appends a slash except at the root,
whose URL is exactly `/`. -/
def urlSpec (ds : Val) (dirs : List String) (fname : String) : String :=
  if valEqStr ds "index.html" then "/" ++ String.intercalate "/" (dirs ++ [fname])
  else if valIsFalse ds then posixDirPath dirs
  else if posixDirPath dirs = "/" then "/"
  else posixDirPath dirs ++ "/"

/-- C1: `url()` of an index-capable page equals the spec's URL at the
`directory_slash` value resolved from the page's own config with fallback to
the parent directory's config, and the spec's `/blog/` examples hold:
`"index.html"` yields `/blog/index.html`, `false` yields `/blog`, the
default yields `/blog/`, and the root directory yields `/`. -/
theorem indexPage_url_correct :
    (∀ (own parentv : Val) (dirs : List String) (fname : String),
      IndexPageMixIn.url own parentv dirs fname =
        urlSpec (resolveDirectorySlash own parentv) dirs fname) ∧
    IndexPageMixIn.url (Val.str "index.html") Val.null ["blog"] "index.html" =
      "/blog/index.html" ∧
    IndexPageMixIn.url (Val.bool false) Val.null ["blog"] "index.html" = "/blog" ∧
    IndexPageMixIn.url Val.null Val.null ["blog"] "index.html" = "/blog/" ∧
    IndexPageMixIn.url Val.null (Val.str "index.html") ["blog"] "index.html" =
      "/blog/index.html" ∧
    IndexPageMixIn.url Val.null Val.null [] "index.html" = "/" := by
  refine ⟨fun own parentv dirs fname => ?_, by rfl, by rfl, by rfl, by rfl, by rfl⟩
  unfold IndexPageMixIn.url urlSpec
  by_cases h1 : valEqStr (resolveDirectorySlash own parentv) "index.html" = true
  · simp [h1]
  · rw [Bool.not_eq_true] at h1
    by_cases h2 : valIsFalse (resolveDirectorySlash own parentv) = true
    · simp [h1, h2]
    · rw [Bool.not_eq_true] at h2
      by_cases h3 : posixDirPath dirs = "/"
      · simp [h1, h2, h3]
      · simp [h1, h2, h3]

/-- Ceiling division on naturals: `math.ceil(n / k)` for positive `k`. -/
def ceilDiv (n k : Nat) : Nat := (n + k - 1) / k

/-- Python's `range(0, stop, step)` for a positive step: the values
`j * step` for `j` below `ceil(stop / step)`, in order. -/
def pyRange (stop step : Nat) : List Nat :=
  (List.range (ceilDiv stop step)).map (fun j => j * step)

/-- One synthesized `AutoIndexPage` (`nodes.py` lines 138-145), restricted to
the data the bucketing governs: its member group, its zero-based page number
and the total page count (file-name templating and layout resolution are
delegated to the external template engine). -/
structure AutoPageM (α : Type) where
  members : List α
  page_num : Nat
  page_max : Nat
deriving DecidableEq

/-- The `pagenate` clamp of `Directory.auto_index_pages` (`nodes.py` lines
133-135): non-integers and non-positive integers become 1.  Python `bool`s
are `int` instances; `True` passes the check with value 1 and `False` is
clamped, so both yield 1. -/
def clampPagenate : Val → Nat
  | .int n => if n ≤ 0 then 1 else n.toNat
  | .bool _ => 1
  | _ => 1

/-- The slicing loop of `Directory.auto_index_pages` for one bucket
specification: `for i in range(0, len(children), pagenate)` yields
`children[i:i+pagenate]` with page number `i // pagenate` and page count
`ceil(len(children) / pagenate)`. -/
def bucketPages {α : Type} (children : List α) (pagenate : Val) : List (AutoPageM α) :=
  let k := clampPagenate pagenate
  (pyRange children.length k).map (fun i =>
    ⟨(children.drop i).take k, i / k, ceilDiv children.length k⟩)

theorem one_le_clampPagenate (v : Val) : 1 ≤ clampPagenate v := by
  cases v <;> simp [clampPagenate]
  next n =>
    by_cases h : n ≤ 0 <;> simp [h]
    omega

/-- C4: for `n` matched children and a configured page size clamped to
`k ≥ 1`, the engine synthesizes exactly `ceil(n / k)` pages whose member
groups are the consecutive slices `children[j*k : (j+1)*k]`, with zero-based
page numbers `j` and `page_max = ceil(n / k)` on every page; concretely, 7
children at page size 3 give member counts `[3, 3, 1]`, page numbers
`[0, 1, 2]` and `page_max` 3 throughout. -/
theorem bucketPages_correct :
    (∀ (α : Type) (children : List α) (v : Val),
      bucketPages children v =
        (List.range (ceilDiv children.length (clampPagenate v))).map (fun j =>
          ⟨(children.drop (j * clampPagenate v)).take (clampPagenate v), j,
            ceilDiv children.length (clampPagenate v)⟩)) ∧
    (bucketPages (List.range 7) (Val.int 3)).map (fun p => p.members.length) = [3, 3, 1] ∧
    (bucketPages (List.range 7) (Val.int 3)).map (fun p => p.page_num) = [0, 1, 2] ∧
    (bucketPages (List.range 7) (Val.int 3)).map (fun p => p.page_max) = [3, 3, 3] := by
  refine ⟨fun α children v => ?_, by rfl, by rfl, by rfl⟩
  unfold bucketPages pyRange
  rw [List.map_map]
  refine congrFun (congrArg List.map (funext fun j => ?_)) _
  show AutoPageM.mk _ (j * clampPagenate v / clampPagenate v) _ = _
  rw [Nat.mul_div_cancel j (one_le_clampPagenate v)]

/-- `is_renderable` from `nodes.py`: read up to 4 characters of the file and
compare with the front-matter marker; any read failure (unreadable or binary
file) is swallowed by the bare `except` and counts as not renderable.  A
file is modelled as its text content, or `.error` when reading raises. -/
def is_renderable (file : Except Unit (List Char)) : Bool :=
  match file with
  | .ok cs => decide (cs.take 4 = ['-', '-', '-', '\n'])
  | .error _ => false

/-- The closed set of page classifications produced by `Page.__new__`. -/
inductive PageClass where
  | indexPage
  | articlePage
  | assetPage
deriving DecidableEq

namespace Page

/-- The classification step of `Page.__new__` (`nodes.py` lines 218-233):
renderable files whose stem is `index` become `IndexPage`, other renderable
files become `ArticlePage`, everything else becomes `AssetPage`. -/
def classify (file : Except Unit (List Char)) (stem : String) : PageClass :=
  if is_renderable file then
    if stem = "index" then PageClass.indexPage else PageClass.articlePage
  else PageClass.assetPage

end Page

/-- C6: classification reads up to 4 characters; if they equal the marker the
entry is renderable and classified `IndexPage` for stem `index` and
`ArticlePage` otherwise; any other content, and any failing probe
(unreadable or binary file), yields `AssetPage` rather than an error. -/
theorem page_classify_correct :
    (∀ (cs : List Char) (stem : String), cs.take 4 = ['-', '-', '-', '\n'] →
      Page.classify (.ok cs) stem =
        if stem = "index" then PageClass.indexPage else PageClass.articlePage) ∧
    (∀ (cs : List Char) (stem : String), cs.take 4 ≠ ['-', '-', '-', '\n'] →
      Page.classify (.ok cs) stem = PageClass.assetPage) ∧
    (∀ (stem : String), Page.classify (.error ()) stem = PageClass.assetPage) := by
  refine ⟨fun cs stem h => ?_, fun cs stem h => ?_, fun stem => ?_⟩
  · simp [Page.classify, is_renderable, h]
  · simp [Page.classify, is_renderable, h]
  · simp [Page.classify, is_renderable]

/-- Witness for C6 on a marker-opened file, a plain file and a failing
probe. -/
theorem page_classify_correct_witness :
    Page.classify (.ok ['-', '-', '-', '\n', 'x']) "index" = PageClass.indexPage ∧
    Page.classify (.ok ['-', '-', '-', '\n', 'x']) "about" = PageClass.articlePage ∧
    Page.classify (.ok ['h', 'i']) "index" = PageClass.assetPage ∧
    Page.classify (.error ()) "style" = PageClass.assetPage := by
  obtain ⟨h1, h2, h3⟩ := page_classify_correct
  exact ⟨by simpa using h1 ['-', '-', '-', '\n', 'x'] "index" (by decide),
    by simpa using h1 ['-', '-', '-', '\n', 'x'] "about" (by decide),
    h2 ['h', 'i'] "index" (by decide), h3 "style"⟩

/-- Generic association-list lookup (Python `dict.get` for non-`Val`
values). -/
def lookupA {α : Type} : List (String × α) → String → Option α
  | [], _ => Option.none
  | (k', v) :: rest, k => if k' = k then some v else lookupA rest k

/-- Generic Python dict write (insertion-ordered). -/
def setItemA {α : Type} : List (String × α) → String → α → List (String × α)
  | [], k, v => [(k, v)]
  | (k', v') :: rest, k, v =>
      if k' = k then (k, v) :: rest else (k', v') :: setItemA rest k v

theorem lookupA_setItemA {α : Type} (m : List (String × α)) (k : String) (v : α)
    (k' : String) :
    lookupA (setItemA m k v) k' = if k = k' then some v else lookupA m k' := by
  induction m with
  | nil =>
    by_cases hk : k = k' <;> simp [setItemA, lookupA, hk]
  | cons kv rest ih =>
    obtain ⟨k0, v0⟩ := kv
    by_cases h0 : k0 = k
    · subst h0
      simp only [setItemA, if_pos rfl]
      by_cases hk : k0 = k' <;> simp [lookupA, hk]
    · simp only [setItemA, if_neg h0]
      by_cases hk : k0 = k'
      · subst hk
        have hne : ¬k = k0 := fun he => h0 he.symm
        simp [lookupA, hne]
      · simp [lookupA, hk, ih]

/-- The template scope chain of `template.py` / `main.py`: each directory
node owns a scoped template table (its `.template/` directory, modelled as a
name-to-source table) and either chains to a parent resolver (`child`) or is
the outermost resolver (`root`, parent `None`). -/
inductive TemplateChain where
  | root (own : List (String × String))
  | child (own : List (String × String)) (parent : TemplateChain)

namespace Resolver

/-- `Resolver.get_source` from `template.py` (and the identical
`TemplateLoader.get_source` of `main.py`): return the template from the own
scoped location when present, otherwise delegate to the parent resolver, and
raise `TemplateNotFound` (modelled as `.error` carrying the template name)
when there is no parent.  The returned source text stands for the
`(source, filename, uptodate)` triple, whose other two components are
freshness bookkeeping for the external template engine. -/
def get_source : TemplateChain → String → Except String String
  | .root own, name =>
      match lookupA own name with
      | some src => .ok src
      | Option.none => .error name
  | .child own parent, name =>
      match lookupA own name with
      | some src => .ok src
      | Option.none => get_source parent name

end Resolver

/-- C7: template resolution looks in the node's own scoped location first
and returns the hit without consulting the parent; a miss delegates to the
parent resolver verbatim; a miss with no parent fails with
`TemplateNotFound` naming the template. -/
theorem resolver_get_source_correct :
    (∀ (own : List (String × String)) (parent : TemplateChain) (name src : String),
      lookupA own name = some src →
      Resolver.get_source (.child own parent) name = .ok src ∧
      Resolver.get_source (.root own) name = .ok src) ∧
    (∀ (own : List (String × String)) (parent : TemplateChain) (name : String),
      lookupA own name = Option.none →
      Resolver.get_source (.child own parent) name = Resolver.get_source parent name) ∧
    (∀ (own : List (String × String)) (name : String),
      lookupA own name = Option.none →
      Resolver.get_source (.root own) name = .error name) := by
  refine ⟨fun own parent name src h => ⟨?_, ?_⟩, fun own parent name h => ?_,
    fun own name h => ?_⟩ <;> simp [Resolver.get_source, h]

/-- Witness for C7: a two-level chain where the child scope shadows
`base.html`, delegates `other.html`, and the root fails on a missing
name. -/
theorem resolver_get_source_correct_witness :
    Resolver.get_source
        (.child [("base.html", "A")] (.root [("base.html", "B"), ("other.html", "C")]))
        "base.html" = .ok "A" ∧
    Resolver.get_source
        (.child [("base.html", "A")] (.root [("base.html", "B"), ("other.html", "C")]))
        "other.html" = .ok "C" ∧
    Resolver.get_source (.root [("base.html", "B")]) "missing.html" =
      .error "missing.html" := by
  obtain ⟨h1, h2, h3⟩ := resolver_get_source_correct
  refine ⟨(h1 _ _ "base.html" "A" (by rfl)).1, ?_, h3 _ "missing.html" (by rfl)⟩
  rw [h2 _ _ "other.html" (by rfl)]
  exact (h1 _ (.root []) "other.html" "C" (by rfl)).2

/-- Python `str.lower` for the ASCII converter keys. -/
def lowerKey (s : String) : String := ⟨s.data.map Char.toLower⟩

/-- The pass-through `default_converter` of `plugin.py`. -/
def plugin_default : String → AList → String := fun content _ => content

/-- `ConvertersMap.__setitem__` from `plugin.py`: store under the
lower-cased suffix. -/
def plugin_setitem (m : List (String × (String → AList → String))) (suffix : String)
    (conv : String → AList → String) : List (String × (String → AList → String)) :=
  setItemA m (lowerKey suffix) conv

/-- `ConvertersMap.__getitem__` from `plugin.py`: a string key is
lower-cased and looked up with the identity converter as default; a `None`
key short-circuits to the default. -/
def plugin_getitem (m : List (String × (String → AList → String)))
    (suffix : Option String) : String → AList → String :=
  match suffix with
  | some s => (lookupA m (lowerKey s)).getD plugin_default
  | Option.none => plugin_default

/-- The pass-through `default_converter` of `register.py`. -/
def register_default : String → String := fun content => content

/-- Registration in `register.py`'s `ConvertersMap`: a plain dict write, no
key normalization (`converters[mimetype] = fun`). -/
def register_setitem (m : List (String × (String → String))) (mimetype : String)
    (conv : String → String) : List (String × (String → String)) :=
  setItemA m mimetype conv

/-- `ConvertersMap.__getitem__` from `register.py`:
`self.get(mimetype, self.default_converter)` — the key is used verbatim, and
a `None` key (a failed mimetype guess) also falls back to the default. -/
def register_getitem (m : List (String × (String → String)))
    (mimetype : Option String) : String → String :=
  match mimetype with
  | some s => (lookupA m s).getD register_default
  | Option.none => register_default

/-- C8 counterexample: `register.py`'s `ConvertersMap` does not lower-case
at registration or lookup.  Registering under `"MD"` stores the key
verbatim, so looking up `"md"` misses and returns the pass-through default
instead of the registered converter (which would return `"CONVERTED"`). -/
theorem converters_case_insensitive_counterexample :
    lookupA (register_setitem [] "MD" (fun _ => "CONVERTED")) "md" = Option.none ∧
    register_getitem (register_setitem [] "MD" (fun _ => "CONVERTED")) (some "md")
      "content" = "content" ∧
    ((fun _ => "CONVERTED") : String → String) "content" = "CONVERTED" :=
  ⟨rfl, rfl, rfl⟩

/-- C8 (amended): lookup never fails in either registry — unknown or absent
(`None`) keys resolve to the identity pass-through — and `plugin.py`'s
registry is case-insensitive (keys lower-cased at registration and lookup),
while `register.py`'s legacy registry matches keys verbatim. -/
theorem converters_lookup_correct :
    (∀ (m : List (String × (String → AList → String))) (k1 k2 : String)
      (f : String → AList → String), lowerKey k1 = lowerKey k2 →
      plugin_getitem (plugin_setitem m k1 f) (some k2) = f) ∧
    (∀ (m : List (String × (String → AList → String))) (s : String),
      lookupA m (lowerKey s) = Option.none →
      ∀ (content : String) (ctx : AList), plugin_getitem m (some s) content ctx = content) ∧
    (∀ (m : List (String × (String → AList → String))) (content : String) (ctx : AList),
      plugin_getitem m Option.none content ctx = content) ∧
    (∀ (m : List (String × (String → String))) (s : String),
      lookupA m s = Option.none →
      ∀ (content : String), register_getitem m (some s) content = content) ∧
    (∀ (m : List (String × (String → String))) (content : String),
      register_getitem m Option.none content = content) := by
  refine ⟨fun m k1 k2 f h => ?_, fun m s h content ctx => ?_, fun m content ctx => ?_,
    fun m s h content => ?_, fun m content => ?_⟩
  · show (lookupA (setItemA m (lowerKey k1) f) (lowerKey k2)).getD plugin_default = f
    rw [lookupA_setItemA, if_pos h]
    rfl
  · show ((lookupA m (lowerKey s)).getD plugin_default) content ctx = content
    rw [h]
    rfl
  · rfl
  · show ((lookupA m s).getD register_default) content = content
    rw [h]
    rfl
  · rfl

/-- Witness for C8 (amended) on concrete registries. -/
theorem converters_lookup_correct_witness :
    plugin_getitem (plugin_setitem [] "Md" (fun _ _ => "HTML")) (some "mD") "content" [] =
      "HTML" ∧
    plugin_getitem [] (some "md") "content" [] = "content" ∧
    plugin_getitem [] Option.none "content" [] = "content" ∧
    register_getitem [] (some "md") "content" = "content" ∧
    register_getitem [] Option.none "content" = "content" := by
  obtain ⟨h1, h2, h3, h4, h5⟩ := converters_lookup_correct
  exact ⟨by rw [h1 [] "Md" "mD" (fun _ _ => "HTML") (by rfl)],
    h2 [] "md" (by rfl) "content" [], h3 [] "content" [],
    h4 [] "md" (by rfl) "content", h5 [] "content"⟩

/-- Python truthiness of a config value (`if not self.config['autoindex']`):
`None`, `False`, `0`, and empty strings/sequences/mappings are falsy. -/
def truthy : Val → Bool
  | .null => false
  | .bool b => b
  | .int n => decide (n ≠ 0)
  | .str s => !decide (s = "")
  | .list xs => !xs.isEmpty
  | .dict es => !es.isEmpty

/-- A glob match, as a path relative to the directory, split into
components (intermediate directories and the entry name). -/
abbrev RelPath := List String

/-- The entry name of a relative path (`path.name`). -/
def lastName (p : RelPath) : String := (p.getLast?).getD ""

/-- Python `str.startswith('.')`. -/
def startsWithDot (s : String) : Bool :=
  match s.data with
  | '.' :: _ => true
  | _ => false

/-- The `is_hidden` helper of `Directory.get_children` (`nodes.py` lines
203-207): some parent directory name along the relative path, or the entry
name itself, starts with a dot. -/
def is_hidden (p : RelPath) : Bool :=
  p.dropLast.any startsWithDot || startsWithDot (lastName p)

/-- `pathlib`'s `PurePath.stem`: with `i` the index of the last dot, the
name up to `i` when `0 < i < len(name) - 1`, else the whole name. -/
def pathStem (name : String) : String :=
  let cs := name.data
  match cs.reverse.findIdx? (fun c => c = '.') with
  | Option.none => name
  | some j =>
      let i := cs.length - 1 - j
      if 0 < i ∧ i < cs.length - 1 then ⟨cs.take i⟩ else name

/-- `Directory.get_children` (`nodes.py` lines 202-211) applied to the raw
glob matches: keep the matches that are not hidden and whose stem is not
`index`. -/
def get_children (ms : List RelPath) : List RelPath :=
  ms.filter (fun p => !is_hidden p && !decide (pathStem (lastName p) = "index"))

/-- The `autoindex` config normalization of `Directory.auto_index_pages`
(`nodes.py` lines 119-124): a string becomes a one-element list of a layout
mapping, a mapping becomes a one-element list, anything else is kept. -/
def normalizeAutoindex (v : Val) : Val :=
  match (match v with
    | .str s => Val.list [Val.dict [("layout", Val.str s)]]
    | _ => v) with
  | .dict es => Val.list [Val.dict es]
  | c1 => c1

/-- One iteration of the bucket loop of `Directory.auto_index_pages`
(`nodes.py` lines 127-145): a string element is promoted to a layout
mapping; the children are the filtered matches of the `source` glob
(default `*`); the pages are the `bucketPages` slices at the configured
`pagenate` (default 1).  `Option.none` models the `AttributeError` Python
raises when the element is neither a string nor a mapping, or when the
`source` value is not a string usable as a glob pattern. -/
def confAsDict : Val → Option AList
  | .str s => some [("layout", Val.str s)]
  | .dict es => some es
  | _ => Option.none

/-- `conf.get('source', '*')` coerced to a glob pattern: absent defaults to
`*`, a string is used as is, anything else cannot be globbed. -/
def confSource (es : AList) : Option String :=
  match getItem? es "source" with
  | Option.none => some "*"
  | some (.str s) => some s
  | some _ => Option.none

def confPages (matchesFor : String → List RelPath) (conf : Val) :
    Option (List (AutoPageM RelPath)) :=
  match confAsDict conf with
  | Option.none => Option.none
  | some es =>
      match confSource es with
      | Option.none => Option.none
      | some pat =>
          some (bucketPages (get_children (matchesFor pat))
            ((getItem? es "pagenate").getD (Val.int 1)))

/-- `Directory.auto_index_pages` (`nodes.py` lines 115-145): no pages when
`autoindex` is falsy or a user index exists; otherwise the normalized bucket
specifications each contribute their slices, in order.  A truthy `autoindex`
that normalizes to a non-list yields no pages (the `isinstance(confs, list)`
guard skips the loop). -/
def auto_index_pages (autoindex : Val) (hasUserIndex : Bool)
    (matchesFor : String → List RelPath) : Option (List (AutoPageM RelPath)) :=
  if !truthy autoindex || hasUserIndex then some []
  else
    match normalizeAutoindex autoindex with
    | .list cs => (cs.mapM (confPages matchesFor)).map List.flatten
    | _ => some []

/-- `Directory.index_page` (`nodes.py` lines 147-159): the user index when
present; otherwise, with `autoindex` truthy, `next()` on the auto-index
iterator with `StopIteration` caught (`head?` returning `Option.none`
models the caught exhaustion), falling through to `None`. -/
def index_page {β : Type} (userIndex : Option β) (autoindex : Val)
    (autoPages : List (AutoPageM RelPath)) : Option (β ⊕ AutoPageM RelPath) :=
  match userIndex with
  | some u => some (Sum.inl u)
  | Option.none =>
      if truthy autoindex then (autoPages.head?).map Sum.inr else Option.none

theorem bucketPages_nil (v : Val) : bucketPages ([] : List RelPath) v = [] := by
  have h1 := one_le_clampPagenate v
  have h2 : ceilDiv (0 : Nat) (clampPagenate v) = 0 := by
    show (0 + clampPagenate v - 1) / clampPagenate v = 0
    exact Nat.div_eq_of_lt (by omega)
  simp [bucketPages, pyRange, h2]

theorem confPages_of_empty (matchesFor : String → List RelPath)
    (hempty : ∀ pat, get_children (matchesFor pat) = []) (conf : Val) :
    confPages matchesFor conf = Option.none ∨
    confPages matchesFor conf = some [] := by
  unfold confPages
  cases hd : confAsDict conf with
  | none => left; rfl
  | some es =>
    show (match confSource es with
      | Option.none => Option.none
      | some pat => some (bucketPages (get_children (matchesFor pat))
          ((getItem? es "pagenate").getD (Val.int 1)))) = Option.none ∨
      (match confSource es with
      | Option.none => Option.none
      | some pat => some (bucketPages (get_children (matchesFor pat))
          ((getItem? es "pagenate").getD (Val.int 1)))) = some []
    cases hsrc : confSource es with
    | none => left; rfl
    | some pat =>
      right
      show some (bucketPages (get_children (matchesFor pat))
        ((getItem? es "pagenate").getD (Val.int 1))) = some []
      rw [hempty pat, bucketPages_nil]

theorem mapM_confPages_empty (matchesFor : String → List RelPath)
    (hempty : ∀ pat, get_children (matchesFor pat) = []) (cs : List Val) :
    ∀ (ls : List (List (AutoPageM RelPath))),
      cs.mapM (confPages matchesFor) = some ls → ls.flatten = [] := by
  induction cs with
  | nil =>
    intro ls h
    simp only [List.mapM_nil, pure, Option.some.injEq] at h
    subst h
    rfl
  | cons c rest ih =>
    intro ls h
    rw [List.mapM_cons] at h
    rcases confPages_of_empty matchesFor hempty c with hc | hc <;> rw [hc] at h
    · simp [bind] at h
    · cases hrest : rest.mapM (confPages matchesFor) with
      | none => rw [hrest] at h; simp [bind] at h
      | some ls' =>
        rw [hrest] at h
        simp [bind, pure] at h
        subst h
        simp [List.flatten, ih ls' hrest]

/-- C10: when `autoindex` is truthy, no user index exists, and no non-hidden
child with stem other than `index` matches any bucket's glob pattern,
`auto_index_pages` yields zero pages (when it does not crash on a malformed
bucket element), and `index_page` returns `None` instead of raising: the
`StopIteration` of the exhausted iterator is caught. -/
theorem autoindex_empty_correct {β : Type} (autoindex : Val)
    (matchesFor : String → List RelPath)
    (ht : truthy autoindex = true)
    (hempty : ∀ pat, get_children (matchesFor pat) = [])
    (ps : List (AutoPageM RelPath))
    (hps : auto_index_pages autoindex false matchesFor = some ps) :
    ps = [] ∧ index_page (Option.none : Option β) autoindex ps = Option.none := by
  have hps' : ps = [] := by
    unfold auto_index_pages at hps
    rw [ht] at hps
    simp only [Bool.not_true, Bool.false_or] at hps
    rw [if_neg (by simp)] at hps
    revert hps
    cases hn : normalizeAutoindex autoindex with
    | list cs =>
      intro hps
      replace hps : Option.map List.flatten (cs.mapM (confPages matchesFor)) = some ps := hps
      cases hm : cs.mapM (confPages matchesFor) with
      | none => rw [hm] at hps; simp at hps
      | some ls =>
        rw [hm] at hps
        simp at hps
        rw [← hps]
        exact mapM_confPages_empty matchesFor hempty cs ls hm
    | null => intro hps; exact (Option.some.inj hps).symm
    | bool b => intro hps; exact (Option.some.inj hps).symm
    | int n => intro hps; exact (Option.some.inj hps).symm
    | str sv => intro hps; exact (Option.some.inj hps).symm
    | dict es => intro hps; exact (Option.some.inj hps).symm
  subst hps'
  refine ⟨rfl, ?_⟩
  unfold index_page
  rw [ht]
  rfl

/-- Witness for C10: `autoindex: "list.html"` over a directory whose only
glob matches are a hidden file and an `index`-stemmed file. -/
theorem autoindex_empty_correct_witness :
    get_children [[".hidden.md"], ["index.md"]] = [] ∧
    auto_index_pages (Val.str "list.html") false (fun _ => [[".hidden.md"], ["index.md"]]) =
      some [] ∧
    index_page (Option.none : Option Unit) (Val.str "list.html") [] = Option.none :=
  ⟨rfl, rfl,
    (autoindex_empty_correct (Val.str "list.html")
      (fun _ => [[".hidden.md"], ["index.md"]]) rfl (fun _ => rfl) [] rfl).2⟩

/-- The materialized view of `config.overlay(extra)` (`config.py`): overlay
builds `Config(merge_dict(self._config, extra), self)`, whose constructor
merges the parent's view once more, so the stored view is
`merge_dict(view, merge_dict(view, extra))`. -/
def overlay_view (v extra : AList) : AList := merge_dict v (merge_dict v extra)

/-- One page of the site as `relations_info` observes it: its `url()` and
`path()` results, its own materialized config view, and the index lists of
the pages its `children()`, `brothers()` and `parent_page()` methods
produce.  `AssetPage`s carry the empty config. -/
structure PageNode where
  url : String
  path : String
  config : AList
  children : List Nat
  brothers : List Nat
  parentIdx : Option Nat

/-- A site: the finite collection of pages produced by a root traversal. -/
structure Site where
  nodes : List PageNode

/-- Page lookup; out-of-range indices yield an inert empty page. -/
def getNode (s : Site) (i : Nat) : PageNode :=
  s.nodes.getD i ⟨"", "", [], [], [], Option.none⟩

/-- `page_info().as_dict()` for a renderable page (`nodes.py` lines
322-326): the page config overlaid with its `path` and `url`; with the empty
config this also covers `AssetPage.page_info`. -/
def pageInfo (n : PageNode) : AList :=
  overlay_view n.config [("path", Val.str n.path), ("url", Val.str n.url)]

/-- The `ignore_urls = set(ignore_urls); ignore_urls.add(self.url())` step of
`relations_info`: a copy of the caller's set with the page's own URL
added. -/
def insertUrl (u : String) (ig : List String) : List String :=
  if u ∈ ig then ig else u :: ig

/-- `Page.relations_info` from `nodes.py` (lines 264-282), fuel-indexed for
termination: the children and brothers lists hold, for each related page
whose URL is not in the extended ignore set, the page's `page_info` overlaid
with its own recursive `relations_info` under the extended ignore set; the
`parent` entry is the parent page's `page_info`, not filtered by the ignore
set.  Fuel exhaustion returns the empty relations mapping; since the ignore
set grows strictly along every recursion path and only un-ignored pages are
recursed into, any fuel exceeding the number of distinct URLs in the site
reproduces the Python fixpoint. -/
def relations_info (s : Site) : Nat → Nat → List String → AList
  | 0, _, _ =>
      [("children", Val.list []), ("brothers", Val.list []), ("parent", Val.null)]
  | fuel + 1, i, ignore =>
      [("children", Val.list (((getNode s i).children.filter
          (fun j => !decide ((getNode s j).url ∈ insertUrl (getNode s i).url ignore))).map
          (fun j => Val.dict (overlay_view (pageInfo (getNode s j))
            (relations_info s fuel j (insertUrl (getNode s i).url ignore)))))),
       ("brothers", Val.list (((getNode s i).brothers.filter
          (fun j => !decide ((getNode s j).url ∈ insertUrl (getNode s i).url ignore))).map
          (fun j => Val.dict (overlay_view (pageInfo (getNode s j))
            (relations_info s fuel j (insertUrl (getNode s i).url ignore)))))),
       ("parent", match (getNode s i).parentIdx with
          | some j => Val.dict (pageInfo (getNode s j))
          | Option.none => Val.null)]

/-- The children entries of one `relations_info` level. -/
def relChildEntries (s : Site) (fuel i : Nat) (ignore : List String) : List Val :=
  ((getNode s i).children.filter
    (fun j => !decide ((getNode s j).url ∈ insertUrl (getNode s i).url ignore))).map
    (fun j => Val.dict (overlay_view (pageInfo (getNode s j))
      (relations_info s fuel j (insertUrl (getNode s i).url ignore))))

/-- The brothers entries of one `relations_info` level. -/
def relBroEntries (s : Site) (fuel i : Nat) (ignore : List String) : List Val :=
  ((getNode s i).brothers.filter
    (fun j => !decide ((getNode s j).url ∈ insertUrl (getNode s i).url ignore))).map
    (fun j => Val.dict (overlay_view (pageInfo (getNode s j))
      (relations_info s fuel j (insertUrl (getNode s i).url ignore))))

/-- The parent entry of one `relations_info` level (never filtered). -/
def relParentVal (s : Site) (i : Nat) : Val :=
  match (getNode s i).parentIdx with
  | some j => Val.dict (pageInfo (getNode s j))
  | Option.none => Val.null

theorem relations_info_succ (s : Site) (fuel i : Nat) (ignore : List String) :
    relations_info s (fuel + 1) i ignore =
      [("children", Val.list (relChildEntries s fuel i ignore)),
       ("brothers", Val.list (relBroEntries s fuel i ignore)),
       ("parent", relParentVal s i)] := rfl

/-- The list stored under a relations key, if any. -/
def entryList : Option Val → List Val
  | some (.list xs) => xs
  | _ => []

/-- The relation entry `e` carries `u` as the value of its `url` field. -/
def entryUrlIs (u : String) : Val → Bool
  | .dict es =>
      match getItem? es "url" with
      | some (.str s) => decide (s = u)
      | _ => false
  | _ => false

/-- Fuel-indexed search for a URL among the `children`/`brothers` entries of
a relations mapping, at any nesting depth: a match is an entry whose `url`
field equals `u`, or a hit anywhere inside an entry's own relations lists.
Any fuel at least the nesting depth of the searched value is exact. -/
def relOccursF : Nat → String → Val → Bool
  | 0, _, _ => false
  | fuel + 1, u, v =>
      match v with
      | .dict es =>
          ((entryList (getItem? es "children")).any
            (fun e => entryUrlIs u e || relOccursF fuel u e)) ||
          ((entryList (getItem? es "brothers")).any
            (fun e => entryUrlIs u e || relOccursF fuel u e))
      | _ => false

/-- Fuel-indexed search for a `url` field holding `u` anywhere inside a
value, through every mapping and sequence. -/
def anyUrlFieldF : Nat → String → Val → Bool
  | 0, _, _ => false
  | fuel + 1, u, v =>
      match v with
      | .dict es => es.any (fun kv =>
          (match kv.2 with
            | .str s => decide (kv.1 = "url") && decide (s = u)
            | _ => false) || anyUrlFieldF fuel u kv.2)
      | .list xs => xs.any (anyUrlFieldF fuel u)
      | _ => false

/-- Well-formedness of a site: every page's own config view has unique keys
(true of every Python dict). -/
def siteWF (s : Site) : Prop := ∀ i, (keysOf (getNode s i).config).Nodup

theorem mem_insertUrl_of_mem (u w : String) (ig : List String) (h : u ∈ ig) :
    u ∈ insertUrl w ig := by
  unfold insertUrl
  by_cases hw : w ∈ ig
  · rw [if_pos hw]; exact h
  · rw [if_neg hw]; exact List.mem_cons_of_mem w h

theorem getItem?_overlay_str (a b : AList) (ha : (keysOf a).Nodup)
    (hb : (keysOf b).Nodup) (k s0 : String)
    (hstr : getItem? a k = some (Val.str s0))
    (hnone : getItem? b k = Option.none) :
    getItem? (overlay_view a b) k = some (Val.str s0) := by
  unfold overlay_view
  have hm : getItem? (merge_dict a b) k = some (Val.str s0) := by
    rw [getItem?_merge_dict a b ha hb k, hstr, hnone]
  rw [getItem?_merge_dict a (merge_dict a b) ha (merge_dict_nodup a b) k, hstr, hm]

theorem getItem?_overlay_list (a b : AList) (ha : (keysOf a).Nodup)
    (hb : (keysOf b).Nodup) (k : String) (xs : List Val)
    (hlist : getItem? b k = some (Val.list xs)) :
    getItem? (overlay_view a b) k = some (Val.list xs) := by
  unfold overlay_view
  have hm : getItem? (merge_dict a b) k = some (Val.list xs) := by
    rw [getItem?_merge_dict a b ha hb k, hlist]
    cases hga : getItem? a k with
    | none => rfl
    | some w => cases w <;> rfl
  rw [getItem?_merge_dict a (merge_dict a b) ha (merge_dict_nodup a b) k, hm]
  cases hga : getItem? a k with
  | none => rfl
  | some w => cases w <;> rfl

theorem pageInfo_nodup (n : PageNode) : (keysOf (pageInfo n)).Nodup :=
  merge_dict_nodup _ _

theorem pageInfo_url (n : PageNode) (h : (keysOf n.config).Nodup) :
    getItem? (pageInfo n) "url" = some (Val.str n.url) := by
  unfold pageInfo overlay_view
  have hpu : getItem? [("path", Val.str n.path), ("url", Val.str n.url)] "url" =
      some (Val.str n.url) := rfl
  have hnd2 : (keysOf [("path", Val.str n.path), ("url", Val.str n.url)]).Nodup := by
    show (["path", "url"] : List String).Nodup
    decide
  have hm : getItem? (merge_dict n.config
      [("path", Val.str n.path), ("url", Val.str n.url)]) "url" = some (Val.str n.url) := by
    rw [getItem?_merge_dict n.config _ h hnd2 "url", hpu]
    cases hga : getItem? n.config "url" with
    | none => rfl
    | some w => cases w <;> rfl
  rw [getItem?_merge_dict n.config _ h (merge_dict_nodup _ _) "url", hm]
  cases hga : getItem? n.config "url" with
  | none => rfl
  | some w => cases w <;> rfl

theorem relations_info_shape (s : Site) (fuel i : Nat) (ignore : List String) :
    ∃ cs bs pv, relations_info s fuel i ignore =
      [("children", Val.list cs), ("brothers", Val.list bs), ("parent", pv)] := by
  cases fuel with
  | zero => exact ⟨[], [], Val.null, rfl⟩
  | succ fuel =>
    exact ⟨relChildEntries s fuel i ignore, relBroEntries s fuel i ignore,
      relParentVal s i, relations_info_succ s fuel i ignore⟩

theorem relOccursF_ext (f : Nat) (u : String) (es1 es2 : AList)
    (hc : getItem? es1 "children" = getItem? es2 "children")
    (hb : getItem? es1 "brothers" = getItem? es2 "brothers") :
    relOccursF f u (Val.dict es1) = relOccursF f u (Val.dict es2) := by
  cases f with
  | zero => rfl
  | succ f =>
    simp only [relOccursF]
    rw [hc, hb]

theorem relOccursF_three (fR : Nat) (u : String) (cs bs : List Val) (pv : Val) :
    relOccursF (fR + 1) u (Val.dict
        [("children", Val.list cs), ("brothers", Val.list bs), ("parent", pv)]) =
      (cs.any (fun e => entryUrlIs u e || relOccursF fR u e) ||
        bs.any (fun e => entryUrlIs u e || relOccursF fR u e)) := rfl

theorem entry_no_self (s : Site) (hwf : siteWF s) (fR fuel : Nat) (ig : List String)
    (u : String) (j : Nat) (hj : (getNode s j).url ∉ ig) (hu : u ∈ ig)
    (ih : ∀ (fuel' i' : Nat) (ignore' : List String) (u' : String),
      u' ∈ insertUrl (getNode s i').url ignore' →
      relOccursF fR u' (Val.dict (relations_info s fuel' i' ignore')) = false) :
    (entryUrlIs u (Val.dict (overlay_view (pageInfo (getNode s j))
        (relations_info s fuel j ig))) ||
      relOccursF fR u (Val.dict (overlay_view (pageInfo (getNode s j))
        (relations_info s fuel j ig)))) = false := by
  obtain ⟨cs, bs, pv, hshape⟩ := relations_info_shape s fuel j ig
  have hrelnd : (keysOf (relations_info s fuel j ig)).Nodup := by
    rw [hshape]
    show (["children", "brothers", "parent"] : List String).Nodup
    decide
  have hpind : (keysOf (pageInfo (getNode s j))).Nodup := pageInfo_nodup _
  have hurlrel : getItem? (relations_info s fuel j ig) "url" = Option.none := by
    rw [hshape]; rfl
  have hurl : getItem? (overlay_view (pageInfo (getNode s j))
      (relations_info s fuel j ig)) "url" = some (Val.str (getNode s j).url) :=
    getItem?_overlay_str _ _ hpind hrelnd _ _ (pageInfo_url _ (hwf j)) hurlrel
  have hne : ¬(getNode s j).url = u := fun he => hj (he ▸ hu)
  have h1 : entryUrlIs u (Val.dict (overlay_view (pageInfo (getNode s j))
      (relations_info s fuel j ig))) = false := by
    simp only [entryUrlIs]
    rw [hurl]
    simp [hne]
  have hcrel : getItem? (relations_info s fuel j ig) "children" = some (Val.list cs) := by
    rw [hshape]; rfl
  have hbrel : getItem? (relations_info s fuel j ig) "brothers" = some (Val.list bs) := by
    rw [hshape]; rfl
  have hc : getItem? (overlay_view (pageInfo (getNode s j))
      (relations_info s fuel j ig)) "children" =
      getItem? (relations_info s fuel j ig) "children" := by
    rw [getItem?_overlay_list _ _ hpind hrelnd _ _ hcrel, hcrel]
  have hb : getItem? (overlay_view (pageInfo (getNode s j))
      (relations_info s fuel j ig)) "brothers" =
      getItem? (relations_info s fuel j ig) "brothers" := by
    rw [getItem?_overlay_list _ _ hpind hrelnd _ _ hbrel, hbrel]
  have h2 : relOccursF fR u (Val.dict (overlay_view (pageInfo (getNode s j))
      (relations_info s fuel j ig))) = false := by
    rw [relOccursF_ext fR u _ _ hc hb]
    exact ih fuel j ig u (mem_insertUrl_of_mem u _ ig hu)
  rw [h1, h2]
  rfl

theorem relations_info_no_self_aux (s : Site) (hwf : siteWF s) :
    ∀ (fuelR fuel i : Nat) (ignore : List String) (u : String),
      u ∈ insertUrl (getNode s i).url ignore →
      relOccursF fuelR u (Val.dict (relations_info s fuel i ignore)) = false := by
  intro fuelR
  induction fuelR with
  | zero => intro fuel i ignore u hu; rfl
  | succ fR ih =>
    intro fuel i ignore u hu
    cases fuel with
    | zero => rfl
    | succ fuel =>
      rw [relations_info_succ, relOccursF_three]
      rw [Bool.or_eq_false_iff]
      constructor <;> rw [List.any_eq_false] <;> intro e he
      · obtain ⟨j, hjmem, rfl⟩ := List.mem_map.mp he
        have hj3 : (getNode s j).url ∉ insertUrl (getNode s i).url ignore := by
          have := (List.mem_filter.mp hjmem).2
          simpa using this
        simp only [Bool.not_eq_true]
        exact entry_no_self s hwf fR fuel _ u j hj3 hu ih
      · obtain ⟨j, hjmem, rfl⟩ := List.mem_map.mp he
        have hj3 : (getNode s j).url ∉ insertUrl (getNode s i).url ignore := by
          have := (List.mem_filter.mp hjmem).2
          simpa using this
        simp only [Bool.not_eq_true]
        exact entry_no_self s hwf fR fuel _ u j hj3 hu ih

/-- C5 (amended): in every well-formed site, a page's own `url()` never
appears among the `children` or `brothers` entries of its `relations_info()`
— at any nesting depth and for every recursion fuel — because the page's URL
is added to a copy of the ignore set before recursing and both lists filter
by that set.  (The unfiltered `parent` entries are excluded; see the
counterexample.) -/
theorem relations_info_no_self (s : Site) (hwf : siteWF s) (fuelR fuel i : Nat) :
    relOccursF fuelR (getNode s i).url (Val.dict (relations_info s fuel i [])) = false :=
  relations_info_no_self_aux s hwf fuelR fuel i [] (getNode s i).url
    (by simp [insertUrl])

/-- The two-page site refuting C5 as stated: a root index page (URL `/`)
whose only child is an article page `/a.html`, which in turn reports the
index page as its parent — exactly the shape `Directory.pages()` and
`parent_page()` produce for a directory with an index and one article. -/
def cexSite : Site :=
  ⟨[⟨"/", "/index.html", [], [1], [], Option.none⟩,
    ⟨"/a.html", "/a.html", [], [], [], some 0⟩]⟩

/-- C5 counterexample: the index page's own URL `/` appears inside its own
`relations_info()` result — as the `url` field of the `parent` entry nested
in its child's entry — because the `parent` entry is never filtered by the
ignore set. -/
theorem relations_self_url_counterexample :
    anyUrlFieldF 6 "/" (Val.dict (relations_info cexSite 3 0 [])) = true := by
  rfl

/-- Witness for C5 (amended) on the counterexample site: the site is
well-formed and the index page's URL does not occur among the
children/brothers entries. -/
theorem relations_info_no_self_witness :
    relOccursF 6 (getNode cexSite 0).url (Val.dict (relations_info cexSite 3 0 [])) =
      false := by
  have hwf : siteWF cexSite := by
    intro i
    have hcfg : (getNode cexSite i).config = [] := by
      match i with
      | 0 => rfl
      | 1 => rfl
      | n + 2 => rfl
    rw [hcfg]
    exact List.nodup_nil
  exact relations_info_no_self cexSite hwf 6 3 0

end BG
